import Mathlib

/-!
Verification of the chunking and RAG-pipeline logic of the
`azure-ai-rag-system` repository.

Text is shallowly embedded as `List Char`; Python string operations used by
`src/document_processor.py` (`str.split("\n\n")`, `str.strip()`,
`re.split(r'(?<=[.!?])\s+', ...)`, slicing `s[-n:]`) are given executable
Lean counterparts below.  The pipeline functions of `src/pipeline.py` and
`src/search_index.py` are embedded with their external collaborators
(search, chat completion, index statistics) passed in as function
arguments; fallible external calls are modelled with `Except`.
-/

set_option autoImplicit false

namespace RAG

/-- Whitespace test used throughout; mirrors the whitespace notion of
Python `str.strip` / `\s` for the character set the repository handles. -/
def isWs (c : Char) : Bool := c.isWhitespace

/-- Terminal punctuation of the sentence splitter
`re.split(r'(?<=[.!?])\s+', para)` in `chunk_text` (line 133). -/
def isTerm (c : Char) : Bool := c == '.' || c == '!' || c == '?'

/-- The non-whitespace content of a text, in order. -/
def nw (s : List Char) : List Char := s.filter (fun c => !(isWs c))

/-- The two-character paragraph separator `"\n\n"` used when merging
pieces into a chunk buffer (lines 149 and 154 of `document_processor.py`). -/
def sep : List Char := ['\n', '\n']

/-- Python slice `s[-n:]` for `n > 0`: the last `min n (length s)`
characters of `s`. -/
def takeLast (n : Nat) (l : List Char) : List Char := l.drop (l.length - n)

/-- Remove trailing whitespace (the right half of Python `str.strip`). -/
def stripEnd (s : List Char) : List Char := (s.reverse.dropWhile isWs).reverse

/-- Python `str.strip()`: remove leading and trailing whitespace. -/
def strip (s : List Char) : List Char := stripEnd (s.dropWhile isWs)

/-- Attach a character to the front of the first part of a split result. -/
def glueHead (c : Char) : List (List Char) → List (List Char)
  | [] => [[c]]
  | h :: t => (c :: h) :: t

/-- Python `text.split("\n\n")` (line 125 of `document_processor.py`):
split at each non-overlapping occurrence of two consecutive newlines,
scanning left to right. -/
def splitParas : List Char → List (List Char)
  | [] => [[]]
  | [c] => [[c]]
  | c :: d :: rest =>
    if c = '\n' ∧ d = '\n' then
      [] :: splitParas rest
    else
      glueHead c (splitParas (d :: rest))

/-- Head-of-list whitespace test: `rest` starts with a whitespace char. -/
def headWs : List Char → Bool
  | [] => false
  | d :: _ => isWs d

/-- Worker for the sentence splitter `re.split(r'(?<=[.!?])\s+', para)`
(line 133): cut after a terminal punctuation character that is followed
by whitespace, consuming the whole whitespace run.  The flag records
whether the scanner is inside the whitespace run that follows a cut
(so that run is consumed rather than emitted). -/
def splitSentGo : Bool → List Char → List (List Char)
  | _, [] => [[]]
  | skip, c :: rest =>
    if skip && isWs c then splitSentGo true rest
    else if isTerm c && headWs rest then [c] :: splitSentGo true rest
    else glueHead c (splitSentGo false rest)

/-- Python `re.split(r'(?<=[.!?])\s+', para)` (line 133). -/
def splitSent (l : List Char) : List (List Char) := splitSentGo false l

/-- Lines 125-126: `paragraphs = [p.strip() for p in text.split("\n\n") if p.strip()]`. -/
def paragraphsOf (text : List Char) : List (List Char) :=
  ((splitParas text).map strip).filter (fun p => p ≠ [])

/-- Lines 129-136: long paragraphs are split into sentences, short ones
kept whole; the resulting pieces are concatenated in order (`extend`). -/
def piecesOf (text : List Char) (chunkSize : Nat) : List (List Char) :=
  ((paragraphsOf text).map
    (fun para => if chunkSize < para.length then splitSent para else [para])).flatten

/-- Lines 139-162, the merge loop of `chunk_text`: accumulate pieces into
`cur`; when adding the next piece would exceed `chunkSize` and the buffer
is non-empty, emit `cur.strip()` and reseed the buffer with the last
`chunkOverlap` characters of the old buffer; finally emit the last
non-whitespace buffer. -/
def mergeChunks (chunkSize chunkOverlap : Nat) : List (List Char) → List Char → List (List Char)
  | [], cur => if strip cur = [] then [] else [strip cur]
  | p :: ps, cur =>
    if chunkSize < cur.length + p.length ∧ cur ≠ [] then
      strip cur ::
        mergeChunks chunkSize chunkOverlap ps
          (if 0 < chunkOverlap then takeLast chunkOverlap cur ++ sep ++ p else p)
    else
      mergeChunks chunkSize chunkOverlap ps (if cur = [] then p else cur ++ sep ++ p)

/-- `chunk_text(text, chunk_size, chunk_overlap)` of
`src/document_processor.py` lines 95-162. -/
def chunkText (text : List Char) (chunkSize chunkOverlap : Nat) : List (List Char) :=
  if strip text = [] then []
  else mergeChunks chunkSize chunkOverlap (piecesOf text chunkSize) []

/-- String literal to character list, for concrete test inputs. -/
def s2l (s : String) : List Char := s.toList

/-- Same loop as `mergeChunks`, but returning the raw (unstripped)
buffer of each emitted chunk; `mergeChunks` is its image under `strip`. -/
def mergeBuffers (chunkSize chunkOverlap : Nat) : List (List Char) → List Char → List (List Char)
  | [], cur => if strip cur = [] then [] else [cur]
  | p :: ps, cur =>
    if chunkSize < cur.length + p.length ∧ cur ≠ [] then
      cur ::
        mergeBuffers chunkSize chunkOverlap ps
          (if 0 < chunkOverlap then takeLast chunkOverlap cur ++ sep ++ p else p)
    else
      mergeBuffers chunkSize chunkOverlap ps (if cur = [] then p else cur ++ sep ++ p)

/-- The raw buffers behind the chunks of `chunkText`. -/
def chunkBuffers (text : List Char) (chunkSize chunkOverlap : Nat) : List (List Char) :=
  if strip text = [] then []
  else mergeBuffers chunkSize chunkOverlap (piecesOf text chunkSize) []

/-- Same loop as `mergeChunks`, additionally recording for each emitted
chunk the non-whitespace content of its overlap seed (`tl`) and the
non-whitespace content of the fresh pieces merged into it (`nc`):
each element is `(chunk, tl, nc)`. -/
def mergeAnnot (chunkSize chunkOverlap : Nat) :
    List (List Char) → List Char → List Char → List Char →
    List (List Char × List Char × List Char)
  | [], cur, tl, nc => if strip cur = [] then [] else [(strip cur, tl, nc)]
  | p :: ps, cur, tl, nc =>
    if chunkSize < cur.length + p.length ∧ cur ≠ [] then
      (strip cur, tl, nc) ::
        (if 0 < chunkOverlap then
          mergeAnnot chunkSize chunkOverlap ps
            (takeLast chunkOverlap cur ++ sep ++ p) (nw (takeLast chunkOverlap cur)) (nw p)
        else
          mergeAnnot chunkSize chunkOverlap ps p [] (nw p))
    else
      mergeAnnot chunkSize chunkOverlap ps (if cur = [] then p else cur ++ sep ++ p) tl (nc ++ nw p)

/-- Chunks of `chunkText` annotated with overlap/new non-whitespace content. -/
def chunkAnnot (text : List Char) (chunkSize chunkOverlap : Nat) :
    List (List Char × List Char × List Char) :=
  if strip text = [] then []
  else mergeAnnot chunkSize chunkOverlap (piecesOf text chunkSize) [] [] []

/-- Length of the longest piece produced by the paragraph/sentence
splitting stages for a given input and chunk size. -/
def maxPieceLen (text : List Char) (chunkSize : Nat) : Nat :=
  ((piecesOf text chunkSize).map List.length).foldr max 0

/-! ## Pipeline data model (`src/pipeline.py`, `src/search_index.py`) -/

/-- One retrieved record as returned by `search` in `src/search_index.py`
(content, source, page, relevance score); the score type is kept abstract
because the code only passes it through. -/
structure SearchResult (S : Type) where
  content : String
  source : String
  page : Nat
  score : S
deriving DecidableEq

/-- The `RAGResult` dataclass of `src/pipeline.py`. -/
structure RAGResult (S : Type) where
  question : String
  answer : String
  sources : List (SearchResult S)
deriving DecidableEq

/-- Python `top_k or self.top_k` (line 174): an explicit argument wins
unless it is falsy (absent or zero). -/
def pickK (ov : Option Nat) (dflt : Nat) : Nat :=
  match ov with
  | none => dflt
  | some n => if n = 0 then dflt else n

/-- The fixed no-result answer of `RAGPipeline.query` (line 183). -/
def noInfoAnswer : String :=
  "I couldn\x27t find any relevant information in the indexed documents."

/-- The fixed no-result fragment of `RAGPipeline.query_stream` (line 221). -/
def streamNoInfo : String := "I couldn\x27t find any relevant information."

/-- Context formatting of `RAGPipeline.query` (lines 188-197): label each
result with its source (and page when non-zero), join with a divider. -/
def formatContext {S : Type} (results : List (SearchResult S)) : String :=
  String.intercalate "\n\n---\n\n"
    (results.map (fun r =>
      "[Source: " ++ r.source ++
        (if r.page ≠ 0 then ", Page " ++ toString r.page else "") ++ "]" ++
        "\n" ++ r.content))

/-- Context formatting of `RAGPipeline.query_stream` (lines 224-229):
source label only, no page. -/
def formatContextStream {S : Type} (results : List (SearchResult S)) : String :=
  String.intercalate "\n\n---\n\n"
    (results.map (fun r => "[Source: " ++ r.source ++ "]" ++ "\n" ++ r.content))

/-- `RAGPipeline.query` (lines 157-207) with its external collaborators
passed in as functions, instrumented with the number of chat-completion
calls the run performs (second component). -/
def ragQueryT {S : Type} (search : String → Nat → List (SearchResult S))
    (chat : String → String → String) (selfTopK : Nat)
    (question : String) (topKOverride : Option Nat) : RAGResult S × Nat :=
  let k := pickK topKOverride selfTopK
  let results := search question k
  if results.isEmpty then
    ({ question := question, answer := noInfoAnswer, sources := [] }, 0)
  else
    ({ question := question, answer := chat question (formatContext results),
       sources := results }, 1)

/-- `RAGPipeline.query`: the returned `RAGResult`. -/
def ragQuery {S : Type} (search : String → Nat → List (SearchResult S))
    (chat : String → String → String) (selfTopK : Nat)
    (question : String) (topKOverride : Option Nat) : RAGResult S :=
  (ragQueryT search chat selfTopK question topKOverride).1

/-- `RAGPipeline.query_stream` (lines 209-232): the full list of yielded
fragments together with the number of chat-completion calls. -/
def ragQueryStreamT {S : Type} (search : String → Nat → List (SearchResult S))
    (chatStream : String → String → List String) (selfTopK : Nat)
    (question : String) (topKOverride : Option Nat) : List String × Nat :=
  let k := pickK topKOverride selfTopK
  let results := search question k
  if results.isEmpty then ([streamNoInfo], 0)
  else (chatStream question (formatContextStream results), 1)

/-- `RAGPipeline.query` when the Index Store call itself may fail:
`query` wraps `search` in no try/except, so a raised error propagates
unmodified to the caller. -/
def ragQueryExc {S E : Type} (search : String → Nat → Except E (List (SearchResult S)))
    (chat : String → String → String) (selfTopK : Nat)
    (question : String) (topKOverride : Option Nat) : Except E (RAGResult S) :=
  match search question (pickK topKOverride selfTopK) with
  | Except.error e => Except.error e
  | Except.ok results =>
    Except.ok (ragQuery (fun _ _ => results) chat selfTopK question topKOverride)

/-- The statistics dictionary built by `get_index_stats` in
`src/search_index.py` (lines 373-384). -/
structure IndexStats where
  documentCount : Nat
  storageSizeBytes : Nat
deriving DecidableEq

/-- `get_index_stats` (lines 373-384): the external
`get_index_statistics` call is modelled as an `Except`; the function
catches every exception and returns zero statistics in that case. -/
def getIndexStats {E : Type} (fetch : Except E IndexStats) : IndexStats :=
  match fetch with
  | Except.ok s => { documentCount := s.documentCount, storageSizeBytes := s.storageSizeBytes }
  | Except.error _ => { documentCount := 0, storageSizeBytes := 0 }

/-- The md5 pre-image built by `process_document` (line 214):
`f"{source}:{page}:{chunk_counter}:{chunk_text_content[:100]}"`.
Only the first 100 characters of the chunk content take part. -/
def hashInput (source : List Char) (page : Nat) (counter : Nat)
    (content : List Char) : List Char :=
  source ++ [':'] ++ s2l (toString page) ++ [':'] ++ s2l (toString counter) ++ [':'] ++
    content.take 100

/-- The chunk id of `process_document` (line 215), parameterised by the
hash `H` (in the source: the first 16 hex characters of md5). -/
def chunkId (H : List Char → List Char) (source : List Char) (page : Nat)
    (counter : Nat) (content : List Char) : List Char :=
  H (hashInput source page counter content)

/-! ## Whitespace toolbox -/

theorem nw_nil : nw [] = [] := rfl

theorem nw_append (a b : List Char) : nw (a ++ b) = nw a ++ nw b := by
  simp [nw]

theorem nw_cons_ws {c : Char} (h : isWs c = true) (l : List Char) :
    nw (c :: l) = nw l := by
  simp [nw, List.filter_cons, h]

theorem nw_cons_nws {c : Char} (h : isWs c = false) (l : List Char) :
    nw (c :: l) = c :: nw l := by
  simp [nw, List.filter_cons, h]

theorem nw_reverse (l : List Char) : nw l.reverse = (nw l).reverse := by
  simp [nw]

theorem nw_dropWhile (l : List Char) : nw (l.dropWhile isWs) = nw l := by
  induction l with
  | nil => rfl
  | cons c t ih =>
    rw [List.dropWhile_cons]
    by_cases h : isWs c = true
    · simp only [h, if_true, ih, nw_cons_ws h]
    · simp only [h]
      simp

theorem nw_stripEnd (l : List Char) : nw (stripEnd l) = nw l := by
  have h := nw_dropWhile l.reverse
  rw [nw_reverse] at h
  calc nw (stripEnd l) = nw ((l.reverse.dropWhile isWs).reverse) := rfl
    _ = (nw (l.reverse.dropWhile isWs)).reverse := nw_reverse _
    _ = (nw l).reverse.reverse := by rw [h]
    _ = nw l := List.reverse_reverse _

theorem nw_strip (l : List Char) : nw (strip l) = nw l := by
  rw [strip, nw_stripEnd, nw_dropWhile]

theorem nw_sep : nw sep = [] := rfl

theorem head?_dropWhile {l : List Char} {c : Char}
    (h : (l.dropWhile isWs).head? = some c) : isWs c = false := by
  induction l with
  | nil => simp [List.dropWhile] at h
  | cons a t ih =>
    rw [List.dropWhile_cons] at h
    by_cases ha : isWs a = true
    · simp only [ha, if_true] at h
      exact ih h
    · simp only [ha] at h
      simp at h
      rw [← h]
      simpa using ha

theorem dropWhile_of_head_nws {l : List Char}
    (h : ∀ c, l.head? = some c → isWs c = false) : l.dropWhile isWs = l := by
  cases l with
  | nil => rfl
  | cons a t =>
    rw [List.dropWhile_cons]
    have := h a (by rfl)
    simp [this]

theorem stripEnd_nil : stripEnd [] = [] := rfl

theorem reverse_stripEnd (l : List Char) :
    (stripEnd l).reverse = l.reverse.dropWhile isWs := by
  simp [stripEnd]

theorem stripEnd_append_eq (l : List Char) : ∃ t, l = stripEnd l ++ t := by
  obtain ⟨t, ht⟩ := List.dropWhile_suffix (l := l.reverse) isWs
  refine ⟨t.reverse, ?_⟩
  have h2 : l.reverse.reverse = (t ++ l.reverse.dropWhile isWs).reverse := by rw [ht]
  rw [List.reverse_reverse, List.reverse_append] at h2
  rw [stripEnd]
  exact h2

theorem head?_stripEnd {l : List Char} (h : stripEnd l ≠ []) :
    l.head? = (stripEnd l).head? := by
  obtain ⟨t, ht⟩ := stripEnd_append_eq l
  conv_lhs => rw [ht]
  rw [List.head?_append]
  cases hc : (stripEnd l).head? with
  | none => exact absurd (List.head?_eq_none_iff.mp hc) h
  | some c => rfl

theorem strip_head_nws {l : List Char} {c : Char}
    (h : (strip l).head? = some c) : isWs c = false := by
  rw [strip] at h
  have hne : stripEnd (l.dropWhile isWs) ≠ [] := by
    intro hk
    rw [hk] at h
    simp at h
  rw [← head?_stripEnd hne] at h
  exact head?_dropWhile h

theorem getLast?_eq_head?_reverse (l : List Char) : l.getLast? = l.reverse.head? := by
  rw [List.head?_reverse]

theorem strip_getLast_nws {l : List Char} {c : Char}
    (h : (strip l).getLast? = some c) : isWs c = false := by
  rw [getLast?_eq_head?_reverse, strip, reverse_stripEnd] at h
  exact head?_dropWhile h

theorem stripEnd_of_getLast_nws {l : List Char}
    (h : ∀ c, l.getLast? = some c → isWs c = false) : stripEnd l = l := by
  have hrev : l.reverse.dropWhile isWs = l.reverse := by
    apply dropWhile_of_head_nws
    intro c hc
    exact h c (by rw [getLast?_eq_head?_reverse]; exact hc)
  rw [stripEnd, hrev, List.reverse_reverse]

theorem strip_of_clean {l : List Char}
    (hh : ∀ c, l.head? = some c → isWs c = false)
    (hl : ∀ c, l.getLast? = some c → isWs c = false) : strip l = l := by
  rw [strip, dropWhile_of_head_nws hh, stripEnd_of_getLast_nws hl]

theorem strip_idem (l : List Char) : strip (strip l) = strip l :=
  strip_of_clean (fun _ h => strip_head_nws h) (fun _ h => strip_getLast_nws h)

theorem strip_eq_nil_of_allWs {l : List Char}
    (h : ∀ c ∈ l, isWs c = true) : strip l = [] := by
  have hd : l.dropWhile isWs = [] := List.dropWhile_eq_nil_iff.mpr h
  rw [strip, hd, stripEnd_nil]

theorem allWs_of_nw_nil {l : List Char} (h : nw l = []) :
    ∀ c ∈ l, isWs c = true := by
  intro c hc
  have := List.filter_eq_nil_iff.mp h c hc
  simpa using this

theorem nw_nil_of_strip_nil {l : List Char} (h : strip l = []) : nw l = [] := by
  rw [← nw_strip, h, nw_nil]

theorem stripEnd_append_clean {p : List Char} (hp : p ≠ [])
    (hc : stripEnd p = p) (x : List Char) : stripEnd (x ++ p) = x ++ p := by
  have hrev : List.dropWhile isWs p.reverse = p.reverse := by
    have h2 : p.reverse = (stripEnd p).reverse := by rw [hc]
    rw [reverse_stripEnd] at h2
    exact h2.symm
  cases hr : p.reverse with
  | nil => exact absurd (by simpa using hr) hp
  | cons a t =>
    have ha : isWs a = false := by
      rw [hr, List.dropWhile_cons] at hrev
      by_cases h : isWs a = true
      · exfalso
        simp only [h, if_true] at hrev
        have hlen := congrArg List.length hrev
        have hle := (List.dropWhile_sublist (l := t) isWs).length_le
        simp at hlen
        omega
      · simpa using h
    have hp2 : p = t.reverse ++ [a] := by
      rw [← List.reverse_reverse p, hr]
      simp
    rw [stripEnd, List.reverse_append, hr, List.cons_append, List.dropWhile_cons]
    simp only [ha, Bool.false_eq_true, if_false]
    simp [hp2]

theorem stripEnd_length_le (l : List Char) : (stripEnd l).length ≤ l.length := by
  obtain ⟨t, ht⟩ := stripEnd_append_eq l
  conv_rhs => rw [ht]
  simp

theorem strip_length_le (l : List Char) : (strip l).length ≤ l.length := by
  calc (strip l).length ≤ (l.dropWhile isWs).length := stripEnd_length_le _
    _ ≤ l.length := (List.dropWhile_sublist isWs).length_le

/-! ## takeLast toolbox -/

theorem takeLast_suffix_eq (n : Nat) (l : List Char) :
    ∃ t, t ++ takeLast n l = l := ⟨l.take (l.length - n), List.take_append_drop _ _⟩

theorem takeLast_of_le {n : Nat} {l : List Char} (h : l.length ≤ n) :
    takeLast n l = l := by
  rw [takeLast, Nat.sub_eq_zero_of_le h, List.drop_zero]

theorem takeLast_length_le (n : Nat) (l : List Char) : (takeLast n l).length ≤ n := by
  rw [takeLast, List.length_drop]
  omega

theorem takeLast_append_right {n : Nat} {b : List Char} (a : List Char)
    (h : n ≤ b.length) : takeLast n (a ++ b) = takeLast n b := by
  rw [takeLast, takeLast, List.length_append]
  have h2 : a.length + b.length - n = a.length + (b.length - n) := by omega
  rw [h2, List.drop_append]

/-! ## Non-whitespace content of the splitting stages -/

theorem glueHead_flatten_nw (c : Char) (L : List (List Char)) :
    ((glueHead c L).map nw).flatten = nw [c] ++ (L.map nw).flatten := by
  cases L with
  | nil => simp [glueHead]
  | cons h t =>
    simp only [glueHead, List.map_cons, List.flatten_cons]
    have : nw (c :: h) = nw [c] ++ nw h := by
      have := nw_append [c] h
      simpa using this
    rw [this, List.append_assoc]

theorem splitParas_nw (l : List Char) : ((splitParas l).map nw).flatten = nw l := by
  induction l using splitParas.induct with
  | case1 => simp [splitParas, nw_nil]
  | case2 c => simp [splitParas]
  | case3 c d rest h ih =>
    rw [splitParas, if_pos h]
    simp only [List.map_cons, List.flatten_cons, nw_nil, List.nil_append]
    rw [ih, h.1, h.2, nw_cons_ws (by decide), nw_cons_ws (by decide)]
  | case4 c d rest h ih =>
    rw [splitParas, if_neg h]
    rw [glueHead_flatten_nw, ih]
    have h2 := nw_append [c] (d :: rest)
    simpa using h2.symm

theorem splitSentGo_nw (l : List Char) :
    ∀ flag, ((splitSentGo flag l).map nw).flatten = nw l := by
  induction l with
  | nil => intro flag; simp [splitSentGo, nw_nil]
  | cons c rest ih =>
    intro flag
    rw [splitSentGo]
    by_cases h1 : (flag && isWs c) = true
    · rw [if_pos h1]
      rw [ih true]
      have hc : isWs c = true := by
        cases flag
        · simp at h1
        · simpa using h1
      rw [nw_cons_ws hc]
    · rw [if_neg h1]
      by_cases h2 : (isTerm c && headWs rest) = true
      · rw [if_pos h2]
        simp only [List.map_cons, List.flatten_cons]
        rw [ih true]
        have h3 := nw_append [c] rest
        simpa using h3.symm
      · rw [if_neg h2]
        rw [glueHead_flatten_nw, ih false]
        have h3 := nw_append [c] rest
        simpa using h3.symm

theorem splitSent_nw (l : List Char) : ((splitSent l).map nw).flatten = nw l :=
  splitSentGo_nw l false

theorem filter_ne_nil_flatten_nw (M : List (List Char)) :
    (((M.filter (fun p => p ≠ [])).map nw).flatten) = ((M.map nw).flatten) := by
  induction M with
  | nil => rfl
  | cons h t ih =>
    rw [List.filter_cons]
    by_cases hh : h = []
    · rw [if_neg (by simp [hh])]
      simp only [hh, List.map_cons, List.flatten_cons, nw_nil, List.nil_append]
      exact ih
    · rw [if_pos (by simp [hh])]
      simp only [List.map_cons, List.flatten_cons]
      rw [ih]

theorem piecesOf_nw (text : List Char) (cs : Nat) :
    (((piecesOf text cs).map nw).flatten) = nw text := by
  rw [piecesOf]
  have step1 : ∀ (paras : List (List Char)),
      (((paras.map (fun para => if cs < para.length then splitSent para else [para])).flatten).map
        nw).flatten = ((paras.map nw).flatten) := by
    intro paras
    induction paras with
    | nil => rfl
    | cons p t ih =>
      simp only [List.map_cons, List.flatten_cons, List.map_append, List.flatten_append, ih]
      congr 1
      by_cases hp : cs < p.length
      · simp only [hp, if_true]
        exact splitSent_nw p
      · simp [hp]
  rw [step1, paragraphsOf, filter_ne_nil_flatten_nw]
  have step2 : (((splitParas text).map strip).map nw) = ((splitParas text).map nw) := by
    rw [List.map_map]
    exact List.map_congr_left (fun p _ => nw_strip p)
  rw [step2, splitParas_nw]

/-! ## Pieces have no leading or trailing whitespace -/

/-- A list that does not start with whitespace. -/
def headClean (l : List Char) : Prop := ∀ c, l.head? = some c → isWs c = false

/-- A list that does not end with whitespace. -/
def lastClean (l : List Char) : Prop := ∀ c, l.getLast? = some c → isWs c = false

theorem isTerm_nws {c : Char} (h : isTerm c = true) : isWs c = false := by
  have h2 : (c = '.' ∨ c = '!') ∨ c = '?' := by
    simpa [isTerm] using h
  rcases h2 with (h2 | h2) | h2 <;> subst h2 <;> decide

theorem getLast?_cons_ne {c : Char} {rest : List Char} (h : rest ≠ []) :
    (c :: rest).getLast? = rest.getLast? := by
  rw [getLast?_eq_head?_reverse, getLast?_eq_head?_reverse, List.reverse_cons,
    List.head?_append]
  cases hr : rest.reverse.head? with
  | none =>
    exact absurd (by simpa using List.head?_eq_none_iff.mp hr) h
  | some d => rfl

theorem splitSentGo_ne_nil (l : List Char) : ∀ flag, splitSentGo flag l ≠ [] := by
  induction l with
  | nil => intro flag; simp [splitSentGo]
  | cons c rest ih =>
    intro flag
    rw [splitSentGo]
    by_cases h1 : (flag && isWs c) = true
    · rw [if_pos h1]
      exact ih true
    · rw [if_neg h1]
      by_cases h2 : (isTerm c && headWs rest) = true
      · rw [if_pos h2]
        simp
      · rw [if_neg h2]
        cases splitSentGo false rest with
        | nil => simp [glueHead]
        | cons a t => simp [glueHead]

theorem splitSent_ne_nil (l : List Char) : splitSent l ≠ [] :=
  splitSentGo_ne_nil l false

theorem lastClean_of_suffix {a l : List Char} (hs : ∃ t, t ++ a = l)
    (h : lastClean l) : lastClean a := by
  obtain ⟨t, ht⟩ := hs
  intro c hc
  apply h
  rw [← ht, List.getLast?_append, hc]
  rfl

theorem splitSentGo_clean (l : List Char) : ∀ flag, l ≠ [] → lastClean l →
    (∀ q ∈ splitSentGo flag l, q ≠ []) ∧
    (∀ q ∈ (splitSentGo flag l).tail, headClean q) ∧
    (flag = true → ∀ q ∈ splitSentGo flag l, headClean q) ∧
    (flag = false → ∀ q, (splitSentGo flag l).head? = some q → q.head? = l.head?) ∧
    (∀ q ∈ splitSentGo flag l, lastClean q) := by
  induction l with
  | nil =>
    intro flag hne _
    exact absurd rfl hne
  | cons c rest ih =>
    intro flag _ hlast
    rw [splitSentGo]
    by_cases h1 : (flag && isWs c) = true
    · rw [if_pos h1]
      have hflag : flag = true := by
        cases flag
        · simp at h1
        · rfl
      have hwc : isWs c = true := by
        cases flag
        · simp at h1
        · simpa using h1
      have hrest_ne : rest ≠ [] := by
        intro hk
        subst hk
        have h3 := hlast c (by simp)
        rw [hwc] at h3
        simp at h3
      have hlrest : lastClean rest := fun d hd =>
        hlast d (by rw [getLast?_cons_ne hrest_ne]; exact hd)
      obtain ⟨ine, itail, iall, _, ilast⟩ := ih true hrest_ne hlrest
      have iallt := iall rfl
      refine ⟨ine, ?_, ?_, ?_, ilast⟩
      · intro q hq
        exact iallt q (List.mem_of_mem_tail hq)
      · intro _ q hq
        exact iallt q hq
      · intro hf
        exfalso
        rw [hf] at hflag
        exact Bool.false_ne_true hflag
    · rw [if_neg h1]
      by_cases h2 : (isTerm c && headWs rest) = true
      · rw [if_pos h2]
        have hterm : isTerm c = true := by
          cases hA : isTerm c
          · rw [hA] at h2; simp at h2
          · rfl
        have hws : headWs rest = true := by
          cases hA : headWs rest
          · rw [hA] at h2; simp at h2
          · rfl
        have hrest_ne : rest ≠ [] := by
          intro hk
          rw [hk] at hws
          simp [headWs] at hws
        have hlrest : lastClean rest := fun d hd =>
          hlast d (by rw [getLast?_cons_ne hrest_ne]; exact hd)
        obtain ⟨ine, itail, iall, _, ilast⟩ := ih true hrest_ne hlrest
        have iallt := iall rfl
        refine ⟨?_, ?_, ?_, ?_, ?_⟩
        · intro q hq
          rcases List.mem_cons.mp hq with hq | hq
          · subst hq; simp
          · exact ine q hq
        · intro q hq
          simp only [List.tail_cons] at hq
          exact iallt q hq
        · intro _ q hq
          rcases List.mem_cons.mp hq with hq | hq
          · subst hq
            intro d hd
            have hcd : c = d := by simpa using hd
            subst hcd
            exact isTerm_nws hterm
          · exact iallt q hq
        · intro _ q hq
          have h3 : [c] = q := by simpa using hq
          subst h3
          rfl
        · intro q hq
          rcases List.mem_cons.mp hq with hq | hq
          · subst hq
            intro d hd
            have hcd : c = d := by simpa using hd
            subst hcd
            exact isTerm_nws hterm
          · exact ilast q hq
      · rw [if_neg h2]
        have hcns : flag = true → isWs c = false := by
          intro hf
          cases hw : isWs c
          · rfl
          · exfalso
            apply h1
            rw [hf, hw]
            rfl
        cases hrest : rest with
        | nil =>
          subst hrest
          have hglue : glueHead c (splitSentGo false []) = [[c]] := rfl
          rw [hglue]
          refine ⟨?_, ?_, ?_, ?_, ?_⟩
          · intro q hq
            have h3 : q = [c] := by simpa using hq
            subst h3
            simp
          · intro q hq
            simp at hq
          · intro hf q hq
            have h3 : q = [c] := by simpa using hq
            subst h3
            intro d hd
            have hcd : c = d := by simpa using hd
            subst hcd
            exact hcns hf
          · intro _ q hq
            have h3 : [c] = q := by simpa using hq
            subst h3
            rfl
          · intro q hq
            have h3 : q = [c] := by simpa using hq
            subst h3
            intro d hd
            have hcd : c = d := by simpa using hd
            subst hcd
            exact hlast c (by simp)
        | cons r0 rt =>
          rw [← hrest]
          have hrest_ne : rest ≠ [] := by rw [hrest]; simp
          have hlrest : lastClean rest := fun d hd =>
            hlast d (by rw [getLast?_cons_ne hrest_ne]; exact hd)
          obtain ⟨ine, itail, _, ifirst, ilast⟩ := ih false hrest_ne hlrest
          cases hS : splitSentGo false rest with
          | nil => exact absurd hS (splitSentGo_ne_nil rest false)
          | cons h0 t0 =>
            have hglue : glueHead c (h0 :: t0) = (c :: h0) :: t0 := rfl
            rw [hglue]
            have hh0_ne : h0 ≠ [] := ine h0 (by rw [hS]; simp)
            refine ⟨?_, ?_, ?_, ?_, ?_⟩
            · intro q hq
              rcases List.mem_cons.mp hq with hq | hq
              · subst hq; simp
              · exact ine q (by rw [hS]; exact List.mem_cons_of_mem h0 hq)
            · intro q hq
              simp only [List.tail_cons] at hq
              exact itail q (by rw [hS]; simpa using hq)
            · intro hf q hq
              rcases List.mem_cons.mp hq with hq | hq
              · subst hq
                intro d hd
                have hcd : c = d := by simpa using hd
                subst hcd
                exact hcns hf
              · exact itail q (by rw [hS]; simpa using hq)
            · intro _ q hq
              have h3 : (c :: h0) = q := by simpa using hq
              subst h3
              rfl
            · intro q hq
              rcases List.mem_cons.mp hq with hq | hq
              · subst hq
                intro d hd
                rw [getLast?_cons_ne hh0_ne] at hd
                exact ilast h0 (by rw [hS]; simp) d hd
              · exact ilast q (by rw [hS]; exact List.mem_cons_of_mem h0 hq)

theorem splitSent_clean_all {para q : List Char} (hne : para ≠ [])
    (hhc : headClean para) (hlc : lastClean para) (hq : q ∈ splitSent para) :
    q ≠ [] ∧ headClean q ∧ lastClean q := by
  obtain ⟨ine, itail, _, ifirst, ilast⟩ := splitSentGo_clean para false hne hlc
  rw [splitSent] at hq
  refine ⟨ine q hq, ?_, ilast q hq⟩
  cases hS : splitSentGo false para with
  | nil => exact absurd hS (splitSentGo_ne_nil para false)
  | cons q0 qs =>
    rw [hS] at hq
    rcases List.mem_cons.mp hq with hq | hq
    · subst hq
      intro d hd
      have h4 := ifirst rfl q (by rw [hS]; rfl)
      rw [h4] at hd
      exact hhc d hd
    · exact itail q (by rw [hS]; simpa using hq)

theorem paragraphsOf_clean {text : List Char} {para : List Char}
    (h : para ∈ paragraphsOf text) :
    para ≠ [] ∧ headClean para ∧ lastClean para ∧ strip para = para := by
  rw [paragraphsOf] at h
  have hmem := List.mem_filter.mp h
  obtain ⟨x, _, hx⟩ := List.mem_map.mp hmem.1
  have hne : para ≠ [] := by simpa using hmem.2
  subst hx
  exact ⟨hne, fun c hc => strip_head_nws hc, fun c hc => strip_getLast_nws hc,
    strip_idem x⟩

theorem piecesOf_clean {text : List Char} {cs : Nat} {p : List Char}
    (h : p ∈ piecesOf text cs) :
    p ≠ [] ∧ headClean p ∧ lastClean p ∧ strip p = p := by
  rw [piecesOf] at h
  obtain ⟨L, hL, hpL⟩ := List.mem_flatten.mp h
  obtain ⟨para, hpara, hf⟩ := List.mem_map.mp hL
  obtain ⟨hne, hhc, hlc, hstrip⟩ := paragraphsOf_clean hpara
  by_cases hlen : cs < para.length
  · rw [if_pos hlen] at hf
    subst hf
    obtain ⟨hqne, hqhc, hqlc⟩ := splitSent_clean_all hne hhc hlc hpL
    exact ⟨hqne, hqhc, hqlc, strip_of_clean hqhc hqlc⟩
  · rw [if_neg hlen] at hf
    subst hf
    have hp : p = para := by simpa using hpL
    subst hp
    exact ⟨hne, hhc, hlc, hstrip⟩

/-! ## Merge-loop lemmas -/

theorem mergeChunks_eq_map_strip (cs co : Nat) (ps : List (List Char)) :
    ∀ cur, mergeChunks cs co ps cur = (mergeBuffers cs co ps cur).map strip := by
  induction ps with
  | nil =>
    intro cur
    by_cases h : strip cur = [] <;> simp [mergeChunks, mergeBuffers, h]
  | cons p ps ih =>
    intro cur
    rw [mergeChunks, mergeBuffers]
    by_cases h : cs < cur.length + p.length ∧ cur ≠ []
    · rw [if_pos h, if_pos h, List.map_cons, ih]
    · rw [if_neg h, if_neg h, ih]

theorem chunkText_eq_map_strip (text : List Char) (cs co : Nat) :
    chunkText text cs co = (chunkBuffers text cs co).map strip := by
  rw [chunkText, chunkBuffers]
  by_cases h : strip text = []
  · rw [if_pos h, if_pos h]
    rfl
  · rw [if_neg h, if_neg h, mergeChunks_eq_map_strip]

theorem mem_le_foldr_max (l : List Nat) : ∀ x ∈ l, x ≤ l.foldr max 0 := by
  induction l with
  | nil => intro x hx; simp at hx
  | cons a t ih =>
    intro x hx
    rcases List.mem_cons.mp hx with hx | hx
    · subst hx
      exact le_max_left _ _
    · exact le_trans (ih x hx) (le_max_right _ _)

theorem maxPieceLen_spec {text : List Char} {cs : Nat} {p : List Char}
    (h : p ∈ piecesOf text cs) : p.length ≤ maxPieceLen text cs :=
  mem_le_foldr_max _ _ (List.mem_map_of_mem List.length h)

theorem mergeChunks_length_bound (cs co M : Nat) (ps : List (List Char)) :
    ∀ cur, (∀ p ∈ ps, p.length ≤ M) → cur.length ≤ max (cs + 2) (co + 2 + M) →
    ∀ c ∈ mergeChunks cs co ps cur, c.length ≤ max (cs + 2) (co + 2 + M) := by
  induction ps with
  | nil =>
    intro cur _ hcur c hc
    by_cases h : strip cur = []
    · simp [mergeChunks, h] at hc
    · simp only [mergeChunks, if_neg h, List.mem_singleton] at hc
      subst hc
      exact le_trans (strip_length_le cur) hcur
  | cons p ps ih =>
    intro cur hps hcur c hc
    have hp : p.length ≤ M := hps p (List.mem_cons_self p ps)
    have hps2 : ∀ q ∈ ps, q.length ≤ M := fun q hq => hps q (List.mem_cons_of_mem p hq)
    rw [mergeChunks] at hc
    by_cases h : cs < cur.length + p.length ∧ cur ≠ []
    · rw [if_pos h] at hc
      rcases List.mem_cons.mp hc with hc | hc
      · subst hc
        exact le_trans (strip_length_le cur) hcur
      · refine ih _ hps2 ?_ c hc
        by_cases hco : 0 < co
        · rw [if_pos hco]
          have h1 : (takeLast co cur).length ≤ co := takeLast_length_le co cur
          simp only [List.length_append, sep, List.length_cons, List.length_nil]
          have h2 : co + 2 + M ≤ max (cs + 2) (co + 2 + M) := le_max_right _ _
          omega
        · rw [if_neg hco]
          have h2 : co + 2 + M ≤ max (cs + 2) (co + 2 + M) := le_max_right _ _
          omega
    · rw [if_neg h] at hc
      refine ih _ hps2 ?_ c hc
      by_cases hcur0 : cur = []
      · rw [if_pos hcur0]
        have h2 : co + 2 + M ≤ max (cs + 2) (co + 2 + M) := le_max_right _ _
        omega
      · rw [if_neg hcur0]
        have h3 : ¬ cs < cur.length + p.length := fun hk => h ⟨hk, hcur0⟩
        simp only [List.length_append, sep, List.length_cons, List.length_nil]
        have h2 : cs + 2 ≤ max (cs + 2) (co + 2 + M) := le_max_left _ _
        omega

theorem mem_merge_of_big {cs : Nat} {cur : List Char} (hlen : cs < cur.length)
    (hstrip : strip cur = cur) : ∀ ps, cur ∈ mergeChunks cs 0 ps cur := by
  intro ps
  have hne : cur ≠ [] := by
    intro hk
    rw [hk] at hlen
    simp at hlen
  cases ps with
  | nil =>
    rw [mergeChunks, if_neg (by rw [hstrip]; exact hne), hstrip]
    simp
  | cons q ps =>
    rw [mergeChunks, if_pos ⟨by omega, hne⟩, hstrip]
    simp

theorem mergeChunks_oversize {cs : Nat} {ps : List (List Char)} {p : List Char}
    (hp : p ∈ ps) (hlen : cs < p.length) (hstrip : strip p = p) :
    ∀ cur, p ∈ mergeChunks cs 0 ps cur := by
  induction ps with
  | nil => simp at hp
  | cons q ps ih =>
    intro cur
    rcases List.mem_cons.mp hp with hq | hq
    · subst hq
      rw [mergeChunks]
      by_cases h : cs < cur.length + p.length ∧ cur ≠ []
      · rw [if_pos h]
        have hseed : (if 0 < (0 : Nat) then takeLast 0 cur ++ sep ++ p else p) = p := by
          rw [if_neg (by omega)]
        rw [hseed]
        exact List.mem_cons_of_mem _ (mem_merge_of_big hlen hstrip ps)
      · rw [if_neg h]
        by_cases hcur : cur = []
        · rw [if_pos hcur]
          exact mem_merge_of_big hlen hstrip ps
        · exfalso
          have h3 : ¬ cs < cur.length + p.length := fun hk => h ⟨hk, hcur⟩
          omega
    · rw [mergeChunks]
      by_cases h : cs < cur.length + q.length ∧ cur ≠ []
      · rw [if_pos h]
        exact List.mem_cons_of_mem _ (ih hq _)
      · rw [if_neg h]
        exact ih hq _

theorem strip_text_ne_nil_of_mem_pieces {text : List Char} {cs : Nat} {p : List Char}
    (hp : p ∈ piecesOf text cs) : strip text ≠ [] := by
  intro h
  have hnw : nw text = [] := nw_nil_of_strip_nil h
  have hjoin := piecesOf_nw text cs
  rw [hnw] at hjoin
  have hpnil : nw p = [] :=
    List.flatten_eq_nil_iff.mp hjoin (nw p) (List.mem_map_of_mem nw hp)
  obtain ⟨hne, _, _, hstrip⟩ := piecesOf_clean hp
  have hsn : strip p = [] := strip_eq_nil_of_allWs (allWs_of_nw_nil hpnil)
  rw [hstrip] at hsn
  exact hne hsn

/-! ## Annotated merge loop: overlap vs fresh content -/

theorem sep_append_ne_nil (x p : List Char) : x ++ sep ++ p ≠ [] := by
  intro h
  have h2 := List.append_eq_nil.mp h
  have h3 := List.append_eq_nil.mp h2.1
  exact absurd h3.2 (by simp [sep])

theorem nw_seed (x p : List Char) : nw (x ++ sep ++ p) = nw x ++ nw p := by
  rw [nw_append, nw_append, nw_sep, List.append_nil]

theorem mergeAnnot_fst (cs co : Nat) (ps : List (List Char)) :
    ∀ cur tl nc, (mergeAnnot cs co ps cur tl nc).map (fun x => x.1) =
      mergeChunks cs co ps cur := by
  induction ps with
  | nil =>
    intro cur tl nc
    by_cases h : strip cur = [] <;> simp [mergeAnnot, mergeChunks, h]
  | cons p ps ih =>
    intro cur tl nc
    rw [mergeAnnot, mergeChunks]
    by_cases h : cs < cur.length + p.length ∧ cur ≠ []
    · rw [if_pos h, if_pos h]
      by_cases hco : 0 < co
      · rw [if_pos hco, if_pos hco, List.map_cons, ih]
      · rw [if_neg hco, if_neg hco, List.map_cons, ih]
    · rw [if_neg h, if_neg h, ih]

theorem mergeAnnot_head_tl (cs co : Nat) (ps : List (List Char)) :
    ∀ cur tl nc x L, mergeAnnot cs co ps cur tl nc = x :: L → x.2.1 = tl := by
  induction ps with
  | nil =>
    intro cur tl nc x L h
    by_cases hs : strip cur = []
    · rw [mergeAnnot, if_pos hs] at h
      simp at h
    · rw [mergeAnnot, if_neg hs, List.cons.injEq] at h
      rw [← h.1]
  | cons p ps ih =>
    intro cur tl nc x L h
    rw [mergeAnnot] at h
    by_cases hcond : cs < cur.length + p.length ∧ cur ≠ []
    · rw [if_pos hcond, List.cons.injEq] at h
      rw [← h.1]
    · rw [if_neg hcond] at h
      exact ih _ _ _ _ _ h

theorem mergeAnnot_inv (cs co : Nat) (ps : List (List Char)) :
    ∀ cur tl nc, nw cur = tl ++ nc → (cur = [] → tl = [] ∧ nc = []) →
      (∀ x ∈ mergeAnnot cs co ps cur tl nc, nw x.1 = x.2.1 ++ x.2.2) ∧
      ((mergeAnnot cs co ps cur tl nc).map (fun x => x.2.2)).flatten =
        nc ++ (ps.map nw).flatten := by
  induction ps with
  | nil =>
    intro cur tl nc hinv hnil
    by_cases hs : strip cur = []
    · rw [mergeAnnot, if_pos hs]
      constructor
      · intro x hx
        simp at hx
      · have h1 : nw cur = [] := nw_nil_of_strip_nil hs
        rw [h1] at hinv
        have h2 : nc = [] := (List.append_eq_nil.mp hinv.symm).2
        simp [h2]
    · rw [mergeAnnot, if_neg hs]
      constructor
      · intro x hx
        have hx2 : x = (strip cur, tl, nc) := by simpa using hx
        subst hx2
        simpa [nw_strip] using hinv
      · simp
  | cons p ps ih =>
    intro cur tl nc hinv hnil
    rw [mergeAnnot]
    by_cases hcond : cs < cur.length + p.length ∧ cur ≠ []
    · rw [if_pos hcond]
      by_cases hco : 0 < co
      · rw [if_pos hco]
        have hrec := ih (takeLast co cur ++ sep ++ p) (nw (takeLast co cur)) (nw p)
          (nw_seed _ _) (fun hk => absurd hk (sep_append_ne_nil _ _))
        constructor
        · intro x hx
          rcases List.mem_cons.mp hx with hx | hx
          · subst hx
            simpa [nw_strip] using hinv
          · exact hrec.1 x hx
        · simp only [List.map_cons, List.flatten_cons]
          rw [hrec.2]
      · rw [if_neg hco]
        have hrec := ih p [] (nw p) (by simp) (fun hk => by subst hk; exact ⟨rfl, rfl⟩)
        constructor
        · intro x hx
          rcases List.mem_cons.mp hx with hx | hx
          · subst hx
            simpa [nw_strip] using hinv
          · exact hrec.1 x hx
        · simp only [List.map_cons, List.flatten_cons]
          rw [hrec.2]
    · rw [if_neg hcond]
      by_cases hcur : cur = []
      · rw [if_pos hcur]
        obtain ⟨htl, hnc⟩ := hnil hcur
        subst htl
        subst hnc
        have hrec := ih p [] ([] ++ nw p) (by simp)
          (fun hk => by subst hk; exact ⟨rfl, rfl⟩)
        refine ⟨hrec.1, ?_⟩
        rw [hrec.2]
        simp
      · rw [if_neg hcur]
        have hrec := ih (cur ++ sep ++ p) tl (nc ++ nw p)
          (by rw [nw_seed, hinv, List.append_assoc]) (fun hk => absurd hk (sep_append_ne_nil _ _))
        refine ⟨hrec.1, ?_⟩
        rw [hrec.2]
        simp [List.append_assoc]

theorem mergeAnnot_chain (cs co : Nat) (ps : List (List Char)) :
    ∀ cur tl nc, List.Chain' (fun x y => ∃ t, t ++ y.2.1 = nw x.1)
      (mergeAnnot cs co ps cur tl nc) := by
  induction ps with
  | nil =>
    intro cur tl nc
    by_cases h : strip cur = [] <;> simp [mergeAnnot, h]
  | cons p ps ih =>
    intro cur tl nc
    rw [mergeAnnot]
    by_cases hcond : cs < cur.length + p.length ∧ cur ≠ []
    · rw [if_pos hcond]
      by_cases hco : 0 < co
      · rw [if_pos hco]
        rw [List.chain'_cons']
        refine ⟨?_, ih _ _ _⟩
        intro y hy
        cases hA : mergeAnnot cs co ps (takeLast co cur ++ sep ++ p)
            (nw (takeLast co cur)) (nw p) with
        | nil =>
          rw [hA] at hy
          simp at hy
        | cons x0 L =>
          rw [hA] at hy
          have hy2 : x0 = y := by simpa using hy
          subst hy2
          have htl := mergeAnnot_head_tl cs co ps _ _ _ _ _ hA
          rw [htl]
          obtain ⟨t, ht⟩ := takeLast_suffix_eq co cur
          refine ⟨nw t, ?_⟩
          rw [nw_strip, ← congrArg nw ht, nw_append]
      · rw [if_neg hco]
        rw [List.chain'_cons']
        refine ⟨?_, ih _ _ _⟩
        intro y hy
        cases hA : mergeAnnot cs co ps p [] (nw p) with
        | nil =>
          rw [hA] at hy
          simp at hy
        | cons x0 L =>
          rw [hA] at hy
          have hy2 : x0 = y := by simpa using hy
          subst hy2
          have htl := mergeAnnot_head_tl cs co ps _ _ _ _ _ hA
          rw [htl]
          exact ⟨nw (strip cur), List.append_nil _⟩
    · rw [if_neg hcond]
      exact ih _ _ _

/-! ## Buffer lemmas for the overlap seeding -/

theorem strip_nil : strip ([] : List Char) = [] := rfl

theorem mergeBuffers_head_ext (cs co : Nat) (ps : List (List Char)) :
    ∀ cur b L, mergeBuffers cs co ps cur = b :: L → ∃ ext, b = cur ++ ext := by
  induction ps with
  | nil =>
    intro cur b L h
    by_cases hs : strip cur = []
    · rw [mergeBuffers, if_pos hs] at h
      simp at h
    · rw [mergeBuffers, if_neg hs, List.cons.injEq] at h
      exact ⟨[], by rw [← h.1, List.append_nil]⟩
  | cons p ps ih =>
    intro cur b L h
    rw [mergeBuffers] at h
    by_cases hcond : cs < cur.length + p.length ∧ cur ≠ []
    · rw [if_pos hcond, List.cons.injEq] at h
      exact ⟨[], by rw [← h.1, List.append_nil]⟩
    · rw [if_neg hcond] at h
      by_cases hcur : cur = []
      · rw [if_pos hcur] at h
        obtain ⟨ext, hext⟩ := ih _ _ _ h
        refine ⟨p ++ ext, ?_⟩
        rw [hcur]
        simpa using hext
      · rw [if_neg hcur] at h
        obtain ⟨ext, hext⟩ := ih _ _ _ h
        refine ⟨sep ++ p ++ ext, ?_⟩
        rw [hext]
        simp [List.append_assoc]

theorem mergeBuffers_chain (cs co : Nat) (hco : 0 < co) (ps : List (List Char)) :
    ∀ cur, List.Chain' (fun b b2 => ∃ t, b2 = takeLast co b ++ sep ++ t)
      (mergeBuffers cs co ps cur) := by
  induction ps with
  | nil =>
    intro cur
    by_cases h : strip cur = [] <;> simp [mergeBuffers, h]
  | cons p ps ih =>
    intro cur
    rw [mergeBuffers]
    by_cases hcond : cs < cur.length + p.length ∧ cur ≠ []
    · rw [if_pos hcond, if_pos hco, List.chain'_cons']
      refine ⟨?_, ih _⟩
      intro y hy
      cases hA : mergeBuffers cs co ps (takeLast co cur ++ sep ++ p) with
      | nil =>
        rw [hA] at hy
        simp at hy
      | cons b0 L =>
        rw [hA] at hy
        have hy2 : b0 = y := by simpa using hy
        subst hy2
        obtain ⟨ext, hext⟩ := mergeBuffers_head_ext cs co ps _ _ _ hA
        refine ⟨p ++ ext, ?_⟩
        rw [hext]
        simp [List.append_assoc]
    · rw [if_neg hcond]
      exact ih _

theorem mergeBuffers_clean (cs co : Nat) (ps : List (List Char)) :
    ∀ cur, (∀ p ∈ ps, p ≠ [] ∧ stripEnd p = p) → (cur = [] ∨ stripEnd cur = cur) →
    ∀ b ∈ mergeBuffers cs co ps cur, stripEnd b = b := by
  induction ps with
  | nil =>
    intro cur _ hcur b hb
    by_cases h : strip cur = []
    · simp [mergeBuffers, h] at hb
    · simp only [mergeBuffers, if_neg h, List.mem_singleton] at hb
      subst hb
      rcases hcur with hcur | hcur
      · exact absurd (by rw [hcur, strip_nil]) h
      · exact hcur
  | cons p ps ih =>
    intro cur hps hcur b hb
    obtain ⟨hpne, hpcl⟩ := hps p (List.mem_cons_self p ps)
    have hps2 : ∀ q ∈ ps, q ≠ [] ∧ stripEnd q = q :=
      fun q hq => hps q (List.mem_cons_of_mem p hq)
    rw [mergeBuffers] at hb
    by_cases hcond : cs < cur.length + p.length ∧ cur ≠ []
    · rw [if_pos hcond] at hb
      rcases List.mem_cons.mp hb with hb | hb
      · subst hb
        rcases hcur with hcur | hcur
        · exact absurd hcur hcond.2
        · exact hcur
      · refine ih _ hps2 ?_ b hb
        by_cases hco : 0 < co
        · rw [if_pos hco]
          exact Or.inr (stripEnd_append_clean hpne hpcl _)
        · rw [if_neg hco]
          exact Or.inr hpcl
    · rw [if_neg hcond] at hb
      refine ih _ hps2 ?_ b hb
      by_cases hc0 : cur = []
      · rw [if_pos hc0]
        exact Or.inr hpcl
      · rw [if_neg hc0]
        exact Or.inr (stripEnd_append_clean hpne hpcl _)

theorem takeLast_strip_eq {b : List Char} {co : Nat} (hclean : stripEnd b = b)
    (hco : co ≤ (strip b).length) : takeLast co (strip b) = takeLast co b := by
  cases hD : b.dropWhile isWs with
  | nil =>
    have hs : strip b = [] := by rw [strip, hD, stripEnd_nil]
    rw [hs] at hco
    simp at hco
    subst hco
    rw [hs, takeLast, takeLast]
    simp
  | cons d t =>
    have hlc : lastClean b := by
      intro c hc
      have h2 : b.reverse = List.dropWhile isWs b.reverse := by
        conv_lhs => rw [← hclean, reverse_stripEnd]
      rw [getLast?_eq_head?_reverse, h2] at hc
      exact head?_dropWhile hc
    have hsd : strip b = b.dropWhile isWs := by
      rw [strip]
      apply stripEnd_of_getLast_nws
      intro c hc
      apply hlc
      obtain ⟨t0, ht0⟩ := List.dropWhile_suffix (l := b) isWs
      rw [← ht0, List.getLast?_append, hc]
      rfl
    obtain ⟨t0, ht0⟩ := List.dropWhile_suffix (l := b) isWs
    rw [hsd]
    conv_rhs => rw [← ht0]
    rw [takeLast_append_right t0 (by rw [← hsd]; exact hco)]

/-! ## Concrete inputs used by counterexamples and witnesses -/

/-- Two paragraphs of lengths 4 and 6; with `chunk_size = 10` the merge
loop joins them (the two-character separator is not counted by the size
check), producing a single 12-character chunk. -/
def c1Text : List Char := s2l "aaaa\n\nbbbbbb"

/-- A short paragraph followed by a 12-character sentence with no
sentence boundary; the second paragraph is longer than `chunk_size = 10`. -/
def c4Text : List Char := s2l "aaaa\n\nbbbbbbbbbbbb"

/-- The oversized sentence piece of `c4Text`. -/
def c4Big : List Char := s2l "bbbbbbbbbbbb"

/-- Input whose first paragraph contains an interior whitespace run, so
that with `chunk_overlap = 8` an overlap tail starts mid-run and a later
chunk is shorter than the overlap length. -/
def c5Text : List Char := s2l "ab    cdef\n\nc\n\nd"

/-- The three-paragraph input of spec Scenario 1. -/
def sc1Text : List Char := s2l "Para one.\n\nPara two.\n\nPara three."

/-! ## Claims -/

/-- Claim C1, counterexample: on `"aaaa\n\nbbbbbb"` with `chunk_size = 10`
and `chunk_overlap = 0`, `chunk_text` returns one 12-character chunk that
exceeds `chunk_size` yet is not a single indivisible piece (it is the
merge of two paragraphs joined by the uncounted two-character separator). -/
theorem C1_counterexample :
    chunkText c1Text 10 0 = [c1Text] ∧ 10 < c1Text.length ∧
      c1Text ∉ piecesOf c1Text 10 := by decide

/-- Claim C1 (amended): every chunk returned by `chunk_text` has length at
most `max (chunk_size + 2) (chunk_overlap + 2 + L)` where `L` is the
length of the longest paragraph/sentence piece: the size check does not
count the two-character separator added on a merge, and an overlap-seeded
buffer starts at up to `chunk_overlap + 2` characters before its piece. -/
theorem C1_amended_bound (text : List Char) (cs co : Nat) (h0 : 0 < cs) :
    ∀ c ∈ chunkText text cs co, c.length ≤ max (cs + 2) (co + 2 + maxPieceLen text cs) := by
  intro c hc
  rw [chunkText] at hc
  by_cases h : strip text = []
  · rw [if_pos h] at hc
    simp at hc
  · rw [if_neg h] at hc
    exact mergeChunks_length_bound cs co (maxPieceLen text cs) _ []
      (fun p hp => maxPieceLen_spec hp) (by simp) c hc

/-- Witness for C1_amended_bound at a concrete chunk. -/
theorem C1_amended_bound_witness :
    (0 < 10) ∧ c1Text ∈ chunkText c1Text 10 0 ∧
      c1Text.length ≤ max (10 + 2) (0 + 2 + maxPieceLen c1Text 10) :=
  ⟨by decide, by decide, C1_amended_bound c1Text 10 0 (by decide) c1Text (by decide)⟩

/-- Claim C2: chunking loses no non-whitespace content.  Each chunk
splits (at the level of non-whitespace characters) into overlap text and
new content; the overlap of the first chunk is empty; each later chunk
carries as overlap a suffix of the previous chunk; and the new contents
concatenate to exactly the non-whitespace content of the input. -/
theorem C2_reconstruction (text : List Char) (cs co : Nat) :
    chunkText text cs co = (chunkAnnot text cs co).map (fun x => x.1) ∧
    (∀ x ∈ chunkAnnot text cs co, nw x.1 = x.2.1 ++ x.2.2) ∧
    (∀ x L, chunkAnnot text cs co = x :: L → x.2.1 = []) ∧
    List.Chain' (fun x y => ∃ t, t ++ y.2.1 = nw x.1) (chunkAnnot text cs co) ∧
    ((chunkAnnot text cs co).map (fun x => x.2.2)).flatten = nw text := by
  rw [chunkText, chunkAnnot]
  by_cases h : strip text = []
  · rw [if_pos h, if_pos h]
    refine ⟨rfl, by simp, by simp, by simp, ?_⟩
    rw [nw_nil_of_strip_nil h]
    rfl
  · rw [if_neg h, if_neg h]
    have hinv := mergeAnnot_inv cs co (piecesOf text cs) [] [] [] rfl
      (fun _ => ⟨rfl, rfl⟩)
    refine ⟨(mergeAnnot_fst cs co _ [] [] []).symm, hinv.1, ?_,
      mergeAnnot_chain cs co _ [] [] [], ?_⟩
    · intro x L hxl
      exact mergeAnnot_head_tl cs co _ _ _ _ _ _ hxl
    · rw [hinv.2, List.nil_append]
      exact piecesOf_nw text cs

/-- Witness for C2_reconstruction at the Scenario-1 input. -/
theorem C2_reconstruction_witness :
    chunkText sc1Text 100 0 = (chunkAnnot sc1Text 100 0).map (fun x => x.1) ∧
    (∀ x ∈ chunkAnnot sc1Text 100 0, nw x.1 = x.2.1 ++ x.2.2) ∧
    (∀ x L, chunkAnnot sc1Text 100 0 = x :: L → x.2.1 = []) ∧
    List.Chain' (fun x y => ∃ t, t ++ y.2.1 = nw x.1) (chunkAnnot sc1Text 100 0) ∧
    ((chunkAnnot sc1Text 100 0).map (fun x => x.2.2)).flatten = nw sc1Text :=
  C2_reconstruction sc1Text 100 0

/-- Claim C3, evaluation at the spec scenario: on
`"Para one.\n\nPara two.\n\nPara three."` with `chunk_size = 100` and
`chunk_overlap = 0` the code merges all three paragraphs (their total
length fits the budget) and returns ONE chunk equal to the whole input,
not three single-paragraph chunks as the spec and the function docstring
state. -/
theorem C3_scenario_eval :
    chunkText sc1Text 100 0 = [sc1Text] ∧ (chunkText sc1Text 100 0).length = 1 := by
  decide

/-- Claim C4, counterexample: with `chunk_overlap = 4 > 0` the oversized
sentence of `c4Text` does not appear as its own chunk: it is emitted
inside a chunk that starts with overlap text from the previous chunk. -/
theorem C4_counterexample :
    c4Big ∈ piecesOf c4Text 10 ∧ 10 < c4Big.length ∧
    c4Big ∉ chunkText c4Text 10 4 ∧
    chunkText c4Text 10 4 = [s2l "aaaa", s2l "aaaa\n\nbbbbbbbbbbbb"] := by decide

/-- Claim C4 (amended): when `chunk_overlap = 0`, every paragraph/sentence
piece longer than `chunk_size` appears verbatim as its own chunk. -/
theorem C4_amended_oversize_alone (text : List Char) (cs : Nat) (p : List Char)
    (h0 : 0 < cs) (hp : p ∈ piecesOf text cs) (hlen : cs < p.length) :
    p ∈ chunkText text cs 0 := by
  rw [chunkText, if_neg (strip_text_ne_nil_of_mem_pieces hp)]
  obtain ⟨_, _, _, hstrip⟩ := piecesOf_clean hp
  exact mergeChunks_oversize hp hlen hstrip []

/-- Witness for C4_amended_oversize_alone at the concrete oversized piece. -/
theorem C4_amended_witness :
    (0 < 10) ∧ c4Big ∈ piecesOf c4Text 10 ∧ 10 < c4Big.length ∧
      c4Big ∈ chunkText c4Text 10 0 :=
  ⟨by decide, by decide, by decide,
    C4_amended_oversize_alone c4Text 10 c4Big (by decide) (by decide) (by decide)⟩

/-- Claim C5, counterexample: on `c5Text` with `chunk_size = 10` and
`chunk_overlap = 8`, the second chunk is `"cdef\n\nc"` (7 characters) but
the third buffer is `" cdef\n\nc\n\nd"`: the last 8 characters of chunk 2
are not at the start of buffer 3 (a whitespace character carried from the
unstripped buffer precedes them). -/
theorem C5_counterexample :
    chunkBuffers c5Text 10 8 =
      [s2l "ab    cdef", s2l "    cdef\n\nc", s2l " cdef\n\nc\n\nd"] ∧
    chunkText c5Text 10 8 = [s2l "ab    cdef", s2l "cdef\n\nc", s2l "cdef\n\nc\n\nd"] ∧
    ¬ (∃ t, s2l " cdef\n\nc\n\nd" = takeLast 8 (s2l "cdef\n\nc") ++ t) := by
  refine ⟨by decide, by decide, ?_⟩
  rintro ⟨t, ht⟩
  have h1 : takeLast 8 (s2l "cdef\n\nc") = s2l "cdef\n\nc" := by decide
  rw [h1] at ht
  have h2 : List.head? (s2l " cdef\n\nc\n\nd") = some ' ' := rfl
  rw [ht] at h2
  have h3 : List.head? (s2l "cdef\n\nc" ++ t) = some 'c' := rfl
  rw [h3] at h2
  exact absurd h2 (by decide)

/-- Claim C5 (amended): for `chunk_overlap > 0`, each chunk is the strip
of its buffer; the last `chunk_overlap` characters of the previous
UNSTRIPPED buffer, followed by the paragraph separator, begin the next
buffer; and whenever a chunk has at least `chunk_overlap` characters,
those buffer-tail characters coincide with the last `chunk_overlap`
characters of the chunk itself. -/
theorem C5_amended_overlap (text : List Char) (cs co : Nat) (hco : 0 < co) :
    chunkText text cs co = (chunkBuffers text cs co).map strip ∧
    List.Chain' (fun b b2 => ∃ t, b2 = takeLast co b ++ sep ++ t)
      (chunkBuffers text cs co) ∧
    (∀ b ∈ chunkBuffers text cs co, co ≤ (strip b).length →
      takeLast co (strip b) = takeLast co b) := by
  refine ⟨chunkText_eq_map_strip text cs co, ?_, ?_⟩
  · rw [chunkBuffers]
    by_cases h : strip text = []
    · rw [if_pos h]
      simp
    · rw [if_neg h]
      exact mergeBuffers_chain cs co hco _ []
  · intro b hb hlen
    rw [chunkBuffers] at hb
    by_cases h : strip text = []
    · rw [if_pos h] at hb
      simp at hb
    · rw [if_neg h] at hb
      have hclean : stripEnd b = b := by
        refine mergeBuffers_clean cs co _ [] ?_ (Or.inl rfl) b hb
        intro p hp
        obtain ⟨hne, _, hlc, _⟩ := piecesOf_clean hp
        exact ⟨hne, stripEnd_of_getLast_nws hlc⟩
      exact takeLast_strip_eq hclean hlen

/-- Witness for C5_amended_overlap at the concrete overlap input. -/
theorem C5_amended_witness :
    (0 < 8) ∧
    (chunkText c5Text 10 8 = (chunkBuffers c5Text 10 8).map strip ∧
     List.Chain' (fun b b2 => ∃ t, b2 = takeLast 8 b ++ sep ++ t)
       (chunkBuffers c5Text 10 8) ∧
     (∀ b ∈ chunkBuffers c5Text 10 8, 8 ≤ (strip b).length →
       takeLast 8 (strip b) = takeLast 8 b)) :=
  ⟨by decide, C5_amended_overlap c5Text 10 8 (by decide)⟩

/-- Claim C6, counterexample: two contents that differ only beyond their
first 100 characters produce the identical md5 pre-image, hence the
identical chunk id for every hash function, in particular for the
identity hash — refuting that any change to the content changes the id. -/
theorem C6_counterexample :
    hashInput (s2l "doc.txt") 1 0 (List.replicate 100 'x' ++ ['a']) =
      hashInput (s2l "doc.txt") 1 0 (List.replicate 100 'x' ++ ['b']) ∧
    chunkId id (s2l "doc.txt") 1 0 (List.replicate 100 'x' ++ ['a']) =
      chunkId id (s2l "doc.txt") 1 0 (List.replicate 100 'x' ++ ['b']) ∧
    (List.replicate 100 'x' ++ ['a'] : List Char) ≠ List.replicate 100 'x' ++ ['b'] := by
  refine ⟨by decide, by decide, by decide⟩

/-- Claim C6 (amended): the chunk id depends only on source, page,
ordinal, and the FIRST 100 characters of the content; identical tuples
always receive identical ids, and equality of the first 100 content
characters already forces id equality, whatever the hash function. -/
theorem C6_amended_id_determinism (H : List Char → List Char) (s : List Char)
    (p k : Nat) (c c2 : List Char) (h : c.take 100 = c2.take 100) :
    chunkId H s p k c = chunkId H s p k c2 := by
  rw [chunkId, chunkId, hashInput, hashInput, h]

/-- Witness for C6_amended_id_determinism at concrete contents. -/
theorem C6_amended_witness :
    ((List.replicate 100 'x' ++ ['a'] : List Char).take 100 =
      (List.replicate 100 'x' ++ ['b'] : List Char).take 100) ∧
    chunkId id (s2l "doc.txt") 1 0 (List.replicate 100 'x' ++ ['a']) =
      chunkId id (s2l "doc.txt") 1 0 (List.replicate 100 'x' ++ ['b']) :=
  ⟨by decide, C6_amended_id_determinism id (s2l "doc.txt") 1 0 _ _ (by decide)⟩

/-- Claim C7: when search returns no results, `RAGPipeline.query` returns
the fixed no-information answer with an empty source list, performs zero
chat-completion calls, and its result does not depend on the chat client. -/
theorem C7_no_results_short_circuit {S : Type}
    (search : String → Nat → List (SearchResult S))
    (chat chat2 : String → String → String) (selfTopK : Nat)
    (question : String) (ov : Option Nat)
    (h : search question (pickK ov selfTopK) = []) :
    ragQueryT search chat selfTopK question ov =
      ({ question := question, answer := noInfoAnswer, sources := [] }, 0) ∧
    ragQueryT search chat selfTopK question ov =
      ragQueryT search chat2 selfTopK question ov := by
  constructor
  · simp [ragQueryT, h]
  · simp [ragQueryT, h]

/-- Witness for C7_no_results_short_circuit with an empty index. -/
theorem C7_witness :
    ((fun (_ : String) (_ : Nat) => ([] : List (SearchResult Unit))) "q"
        (pickK none 5) = []) ∧
    ragQueryT (fun (_ : String) (_ : Nat) => ([] : List (SearchResult Unit)))
        (fun _ _ => "a") 5 "q" none =
      ({ question := "q", answer := noInfoAnswer, sources := [] }, 0) :=
  ⟨rfl, (C7_no_results_short_circuit (fun _ _ => []) (fun _ _ => "a")
    (fun _ _ => "b") 5 "q" none rfl).1⟩

/-- Claim C8, counterexample: `get_index_stats` swallows a failing Index
Store call and returns the zero statistics dictionary as a normal result,
so not every external-service error propagates to the caller. -/
theorem C8_counterexample :
    getIndexStats (Except.error "index statistics call failed") =
      { documentCount := 0, storageSizeBytes := 0 } := rfl

/-- Claim C8 (amended): `get_index_stats` maps EVERY external failure to
the zero statistics result (the one swallow in the library code), whereas
`RAGPipeline.query` wraps the Index Store call in no handler, so a search
failure propagates to the caller with the original cause preserved. -/
theorem C8_amended_error_handling :
    (∀ (E : Type) (e : E), getIndexStats (Except.error e) =
      { documentCount := 0, storageSizeBytes := 0 }) ∧
    (∀ (S E : Type) (search : String → Nat → Except E (List (SearchResult S)))
      (chat : String → String → String) (selfTopK : Nat) (q : String)
      (ov : Option Nat) (e : E),
      search q (pickK ov selfTopK) = Except.error e →
      ragQueryExc search chat selfTopK q ov = Except.error e) := by
  refine ⟨fun E e => rfl, ?_⟩
  intro S E search chat selfTopK q ov e h
  rw [ragQueryExc, h]

/-- Witness for C8_amended_error_handling at a failing search call. -/
theorem C8_amended_witness :
    getIndexStats (Except.error "boom") =
      { documentCount := 0, storageSizeBytes := 0 } ∧
    ragQueryExc
        (fun (_ : String) (_ : Nat) =>
          (Except.error "down" : Except String (List (SearchResult Unit))))
        (fun _ _ => "a") 5 "q" none = Except.error "down" :=
  ⟨C8_amended_error_handling.1 String "boom",
    C8_amended_error_handling.2 Unit String _ _ 5 "q" none "down" rfl⟩

/-- Claim C9: `chunk_text` on the empty string, and on any
whitespace-only string, returns the empty chunk sequence. -/
theorem C9_empty_input (cs co : Nat) :
    chunkText [] cs co = [] ∧
    ∀ text : List Char, (∀ c ∈ text, isWs c = true) → chunkText text cs co = [] := by
  constructor
  · rfl
  · intro text h
    rw [chunkText, if_pos (strip_eq_nil_of_allWs h)]

/-- Witness for C9_empty_input on a concrete whitespace-only string. -/
theorem C9_witness :
    chunkText [] 500 50 = [] ∧ (∀ c ∈ s2l "  \n\t ", isWs c = true) ∧
      chunkText (s2l "  \n\t ") 500 50 = [] :=
  ⟨(C9_empty_input 500 50).1, by decide, (C9_empty_input 500 50).2 _ (by decide)⟩

/-- Claim C10: when search returns no results, `RAGPipeline.query_stream`
yields exactly the one fixed fragment, performs zero chat-completion
calls, and that fragment differs from the non-streaming no-result answer. -/
theorem C10_stream_no_results {S : Type}
    (search : String → Nat → List (SearchResult S))
    (chatStream : String → String → List String) (selfTopK : Nat)
    (q : String) (ov : Option Nat)
    (h : search q (pickK ov selfTopK) = []) :
    ragQueryStreamT search chatStream selfTopK q ov = ([streamNoInfo], 0) ∧
    streamNoInfo ≠ noInfoAnswer := by
  constructor
  · simp [ragQueryStreamT, h]
  · decide

/-- Witness for C10_stream_no_results with an empty index. -/
theorem C10_witness :
    ((fun (_ : String) (_ : Nat) => ([] : List (SearchResult Unit))) "q"
        (pickK none 5) = []) ∧
    ragQueryStreamT (fun (_ : String) (_ : Nat) => ([] : List (SearchResult Unit)))
        (fun _ _ => ["a"]) 5 "q" none = ([streamNoInfo], 0) :=
  ⟨rfl, (C10_stream_no_results (fun _ _ => []) (fun _ _ => ["a"]) 5 "q" none rfl).1⟩

end RAG
